import Mathlib

/-!
Verification of the environment-wrapper layer and the discounted-returns
helper of a reinforcement-learning library (tf_agents).  Python code is
shallowly embedded: numpy float arrays become lists of rationals, the
namedtuple `TimeStep` becomes a structure, stateful environments become
explicit state-passing functions, and `ValueError` becomes `Except`.
-/

namespace TfAgents

/-- Step types as in `time_step.StepType`: FIRST begins an episode, MID
continues it, LAST ends it. -/
inductive StepType where
  | FIRST
  | MID
  | LAST
deriving DecidableEq, Repr

/-- The `TimeStep` namedtuple `(step_type, reward, discount, observation)`,
with numeric fields as exact rationals and the observation type abstract. -/
structure TimeStep (ω : Type) where
  stepType : StepType
  reward : ℚ
  discount : ℚ
  observation : ω
deriving DecidableEq, Repr

/-- `TimeStep.is_last()`: whether the step type is LAST. -/
def TimeStep.isLast {ω : Type} (t : TimeStep ω) : Bool :=
  t.stepType = StepType.LAST

/-- A deterministic Python environment (`py_environment.Base`): `reset` and
`step` thread an explicit state `σ`, actions have type `α`, observations
`ω`; the specs and the render result are abstract values of types
`OS`, `AS`, `R`. -/
structure PyEnv (σ α ω OS AS R : Type) where
  reset : σ → σ × TimeStep ω
  step : σ → α → σ × TimeStep ω
  observationSpec : OS
  actionSpec : AS
  render : σ → String → R

/-- `_compute_returns_fn` from `ppo_agent_test.py`: walks `t` from `n-1`
down to `0` setting `returns[t] = rewards[t] + discounts[t] *
next_state_return` and then `next_state_return = returns[t]`.  Embedded as
structural recursion on the two lists: the value multiplying `discounts[t]`
is the head of the returns already computed for the tail (or the initial
`next_state_return` when the tail is empty). -/
def computeReturns : List ℚ → List ℚ → ℚ → List ℚ
  | r :: rs, d :: ds, v =>
      let rest := computeReturns rs ds v
      (r + d * rest.headD v) :: rest
  | _, _, _ => []

theorem computeReturns_length (rs ds : List ℚ) (v : ℚ)
    (h : rs.length = ds.length) :
    (computeReturns rs ds v).length = rs.length := by
  induction rs generalizing ds with
  | nil => cases ds <;> simp [computeReturns]
  | cons r rs ih =>
    cases ds with
    | nil => simp at h
    | cons d ds =>
      simp only [computeReturns, List.length_cons]
      simp only [List.length_cons, Nat.succ_inj] at h
      rw [ih ds h]

theorem computeReturns_headD_getD (l : List ℚ) (v : ℚ) (hl : l ≠ []) :
    l.headD v = l.getD 0 0 := by
  cases l with
  | nil => exact absurd rfl hl
  | cons a l => rfl

/-- C1: for equal-length `rewards` and `discounts` of length `n` and initial
value `v`, `_compute_returns_fn` returns a list `R` of length `n` with
`R[n-1] = rewards[n-1] + discounts[n-1] * v`, `R[t] = rewards[t] +
discounts[t] * R[t+1]` for `t < n-1`, and `R = []` when `n = 0`. -/
theorem compute_returns_correct (rewards discounts : List ℚ) (v : ℚ)
    (h : rewards.length = discounts.length) :
    (computeReturns rewards discounts v).length = rewards.length ∧
    (rewards.length = 0 → computeReturns rewards discounts v = []) ∧
    (0 < rewards.length →
      (computeReturns rewards discounts v).getD (rewards.length - 1) 0 =
        rewards.getD (rewards.length - 1) 0 +
          discounts.getD (rewards.length - 1) 0 * v) ∧
    (∀ t, t + 1 < rewards.length →
      (computeReturns rewards discounts v).getD t 0 =
        rewards.getD t 0 +
          discounts.getD t 0 * (computeReturns rewards discounts v).getD (t + 1) 0) := by
  induction rewards generalizing discounts with
  | nil =>
    cases discounts with
    | nil => simp [computeReturns]
    | cons d ds => simp at h
  | cons r rs ih =>
    cases discounts with
    | nil => simp at h
    | cons d ds =>
      simp only [List.length_cons, Nat.succ_inj] at h
      obtain ⟨ihlen, -, ihlast, ihrec⟩ := ih ds h
      refine ⟨?_, ?_, ?_, ?_⟩
      · simpa [computeReturns] using ihlen
      · intro h0; simp at h0
      · intro _
        cases rs with
        | nil =>
          cases ds with
          | nil => simp [computeReturns]
          | cons d' ds' => simp at h
        | cons r' rs' =>
          have hpos : 0 < (r' :: rs').length := by simp
          have hidx : (r :: r' :: rs').length - 1 = ((r' :: rs').length - 1) + 1 := by
            simp
          rw [hidx]
          simpa [computeReturns] using ihlast hpos
      · intro t ht
        cases t with
        | zero =>
          have hne : computeReturns rs ds v ≠ [] := by
            intro hnil
            have : rs.length = 0 := by
              have := ihlen
              rw [hnil] at this
              simpa using this.symm
            simp only [List.length_cons] at ht
            omega
          simp only [computeReturns, List.getD_cons_zero, List.getD_cons_succ]
          rw [computeReturns_headD_getD _ _ hne]
        | succ t' =>
          simp only [List.length_cons] at ht
          have ht' : t' + 1 < rs.length := by omega
          simpa [computeReturns] using ihrec t' ht'

/-- Witness for C1 at `rewards = [1, 2]`, `discounts = [1/2, 1/3]`, `v = 2`. -/
theorem compute_returns_correct_witness :
    [(1 : ℚ), 2].length = [(1 : ℚ)/2, 1/3].length ∧
    (computeReturns [(1 : ℚ), 2] [1/2, 1/3] 2).length = 2 :=
  ⟨by decide, (compute_returns_correct [1, 2] [1/2, 1/3] 2 (by decide)).1⟩

/-- State of the `TimeLimit` wrapper: the wrapped environment's state plus
`_step`, which is `None` when no episode is active. -/
structure TLState (σ : Type) where
  envState : σ
  stepCount : Option ℕ
deriving DecidableEq, Repr

variable {σ α ω OS AS R : Type}

/-- `TimeLimit.reset`: sets `_step = 0` and resets the wrapped environment. -/
def timeLimitReset (env : PyEnv σ α ω OS AS R) (s : TLState σ) :
    TLState σ × TimeStep ω :=
  let r := env.reset s.envState
  (⟨r.1, some 0⟩, r.2)

/-- `TimeLimit.step`: when `_step` is `None` it resets instead; otherwise it
steps the wrapped environment, increments `_step`, replaces the step type
with LAST once `_step >= duration`, and clears `_step` when the (possibly
replaced) time step is last. -/
def timeLimitStep (env : PyEnv σ α ω OS AS R) (duration : ℕ)
    (s : TLState σ) (a : α) : TLState σ × TimeStep ω :=
  match s.stepCount with
  | none => timeLimitReset env s
  | some k =>
      let r := env.step s.envState a
      let t := if duration ≤ k + 1 then { r.2 with stepType := StepType.LAST } else r.2
      (⟨r.1, if t.isLast then none else some (k + 1)⟩, t)

/-- Runs `TimeLimit.step` over a list of actions, collecting the returned
time steps in order. -/
def timeLimitRun (env : PyEnv σ α ω OS AS R) (duration : ℕ) :
    TLState σ → List α → TLState σ × List (TimeStep ω)
  | s, [] => (s, [])
  | s, a :: rest =>
      let p := timeLimitStep env duration s a
      let q := timeLimitRun env duration p.1 rest
      (q.1, p.2 :: q.2)

theorem timeLimitRun_exists_last (env : PyEnv σ α ω OS AS R) (duration : ℕ)
    (acts : List α) :
    ∀ (s : TLState σ) (k : ℕ), s.stepCount = some k → k < duration →
      acts.length = duration - k →
      ∃ t ∈ (timeLimitRun env duration s acts).2, t.stepType = StepType.LAST := by
  induction acts with
  | nil =>
    intro s k _ hk hlen
    simp only [List.length_nil] at hlen
    omega
  | cons a rest ih =>
    intro s k hc hk hlen
    simp only [timeLimitRun]
    by_cases hL : (timeLimitStep env duration s a).2.stepType = StepType.LAST
    · exact ⟨(timeLimitStep env duration s a).2, List.mem_cons_self _ _, hL⟩
    · have hstep : timeLimitStep env duration s a =
          (⟨(env.step s.envState a).1,
            if ((if duration ≤ k + 1
                then { (env.step s.envState a).2 with stepType := StepType.LAST }
                else (env.step s.envState a).2) : TimeStep ω).isLast
            then none else some (k + 1)⟩,
           if duration ≤ k + 1
            then { (env.step s.envState a).2 with stepType := StepType.LAST }
            else (env.step s.envState a).2) := by
        simp [timeLimitStep, hc]
      have hnd : ¬ duration ≤ k + 1 := by
        intro hle
        apply hL
        rw [hstep]
        simp [hle]
      rw [hstep] at hL ⊢
      simp only [if_neg hnd] at hL ⊢
      have hnl : ((env.step s.envState a).2.isLast : Bool) = false := by
        simp only [TimeStep.isLast, decide_eq_false_iff_not]
        exact hL
      simp only [hnl, Bool.false_eq_true, if_false]
      have hk' : k + 1 < duration := by omega
      have hlen' : rest.length = duration - (k + 1) := by
        simp only [List.length_cons] at hlen
        omega
      obtain ⟨t, htmem, htL⟩ :=
        ih ⟨(env.step s.envState a).1, some (k + 1)⟩ (k + 1) rfl hk' hlen'
      exact ⟨t, List.mem_cons_of_mem _ htmem, htL⟩

/-- C2: with duration `d >= 1`, the step that brings the episode's step count
to `d` returns a LAST time step regardless of the wrapped environment, and
from any active state with count `k < d` the next `d - k` step calls return
at least one LAST time step, so no episode runs longer than `d` steps. -/
theorem time_limit_bounds_episode (env : PyEnv σ α ω OS AS R)
    (duration k : ℕ) (s : TLState σ) (acts : List α)
    (hd : 1 ≤ duration) (hc : s.stepCount = some k) (hk : k < duration)
    (hlen : acts.length = duration - k) :
    (∀ a, k + 1 = duration →
      (timeLimitStep env duration s a).2.stepType = StepType.LAST) ∧
    ∃ t ∈ (timeLimitRun env duration s acts).2, t.stepType = StepType.LAST := by
  constructor
  · intro a hkd
    have hle : duration ≤ k + 1 := by omega
    simp [timeLimitStep, hc, hle]
  · exact timeLimitRun_exists_last env duration acts s k hc hk hlen

/-- A concrete wrapped environment used by the witnesses: state and
observation are naturals, the inner environment never ends an episode. -/
def demoEnv : PyEnv ℕ ℕ ℕ Unit Unit Unit where
  reset := fun _ => (0, ⟨StepType.FIRST, 0, 1, 0⟩)
  step := fun s _ => (s + 1, ⟨StepType.MID, 1, 1, s + 1⟩)
  observationSpec := ()
  actionSpec := ()
  render := fun _ _ => ()

/-- Witness for C2: duration 2, fresh episode, two steps. -/
theorem time_limit_bounds_episode_witness :
    ((⟨0, some 0⟩ : TLState ℕ).stepCount = some 0 ∧ 0 < 2 ∧
      ([0, 0] : List ℕ).length = 2 - 0) ∧
    ∃ t ∈ (timeLimitRun demoEnv 2 ⟨0, some 0⟩ [0, 0]).2,
      t.stepType = StepType.LAST :=
  ⟨⟨rfl, by decide, by decide⟩,
    (time_limit_bounds_episode demoEnv 2 0 ⟨0, some 0⟩ [0, 0]
      (by decide) rfl (by decide) (by decide)).2⟩

/-- C10: when `_step` is `None` (before any reset, or after a LAST time step
was returned), `TimeLimit.step` ignores the action and returns the wrapped
environment's reset result; and whenever a step call returns a LAST time
step, the wrapper's step count becomes `None`. -/
theorem time_limit_step_inactive_resets (env : PyEnv σ α ω OS AS R)
    (duration : ℕ) (s : TLState σ) (a : α) :
    (s.stepCount = none →
      timeLimitStep env duration s a =
        (⟨(env.reset s.envState).1, some 0⟩, (env.reset s.envState).2)) ∧
    (∀ k, s.stepCount = some k →
      (timeLimitStep env duration s a).2.stepType = StepType.LAST →
      (timeLimitStep env duration s a).1.stepCount = none) := by
  constructor
  · intro hc
    simp [timeLimitStep, timeLimitReset, hc]
  · intro k hc hL
    simp only [timeLimitStep, hc] at hL ⊢
    have : (((if duration ≤ k + 1
        then { (env.step s.envState a).2 with stepType := StepType.LAST }
        else (env.step s.envState a).2) : TimeStep ω).isLast : Bool) = true := by
      simp only [TimeStep.isLast, decide_eq_true_eq]
      exact hL
    simp [this]

/-- Witness for C10: a step from an inactive state returns the reset result. -/
theorem time_limit_step_inactive_resets_witness :
    ((⟨5, none⟩ : TLState ℕ).stepCount = none) ∧
    timeLimitStep demoEnv 3 ⟨5, none⟩ 7 =
      (⟨0, some 0⟩, ⟨StepType.FIRST, 0, 1, 0⟩) :=
  ⟨rfl, (time_limit_step_inactive_resets demoEnv 3 ⟨5, none⟩ 7).1 rfl⟩

/-- The body of `ActionRepeat.step`'s loop with `n` further iterations
allowed after the current one: steps the wrapped environment with the same
action, accumulates the reward into `total`, and stops early when the inner
time step is last.  On exit it builds
`TimeStep(step_type, total_reward, discount, observation)` from the last
inner step. -/
def actionRepeatGo (env : PyEnv σ α ω OS AS R) (a : α) :
    ℕ → σ → ℚ → σ × TimeStep ω
  | 0, s, total =>
      let r := env.step s a
      (r.1, ⟨r.2.stepType, total + r.2.reward, r.2.discount, r.2.observation⟩)
  | n + 1, s, total =>
      let r := env.step s a
      if r.2.isLast then
        (r.1, ⟨r.2.stepType, total + r.2.reward, r.2.discount, r.2.observation⟩)
      else actionRepeatGo env a n r.1 (total + r.2.reward)

/-- `ActionRepeat.step`: runs the loop `for _ in range(times)` starting from
`total_reward = 0`; meaningful for `times >= 1` (the constructor enforces
`times >= 2`). -/
def actionRepeatStep (env : PyEnv σ α ω OS AS R) (times : ℕ) (s : σ)
    (a : α) : σ × TimeStep ω :=
  actionRepeatGo env a (times - 1) s 0

/-- The first `n` time steps obtained by repeatedly stepping the wrapped
environment with the same action, without early stopping. -/
def innerOutputs (env : PyEnv σ α ω OS AS R) (a : α) : σ → ℕ → List (TimeStep ω)
  | _, 0 => []
  | s, n + 1 =>
      let r := env.step s a
      r.2 :: innerOutputs env a r.1 n

/-- The prefix of a list of time steps up to and including the first LAST
one (the whole list if none is LAST). -/
def takeUntilLast : List (TimeStep ω) → List (TimeStep ω)
  | [] => []
  | t :: rest => if t.isLast then [t] else t :: takeUntilLast rest

theorem innerOutputs_succ (env : PyEnv σ α ω OS AS R) (a : α) (s : σ) (n : ℕ) :
    innerOutputs env a s (n + 1) =
      (env.step s a).2 :: innerOutputs env a (env.step s a).1 n := rfl

theorem takeUntilLast_cons (t : TimeStep ω) (rest : List (TimeStep ω)) :
    takeUntilLast (t :: rest) =
      if t.isLast then [t] else t :: takeUntilLast rest := rfl

theorem actionRepeatGo_succ (env : PyEnv σ α ω OS AS R) (a : α) (n : ℕ)
    (s : σ) (total : ℚ) :
    actionRepeatGo env a (n + 1) s total =
      if (env.step s a).2.isLast then
        ((env.step s a).1,
          ⟨(env.step s a).2.stepType, total + (env.step s a).2.reward,
           (env.step s a).2.discount, (env.step s a).2.observation⟩)
      else actionRepeatGo env a n (env.step s a).1
        (total + (env.step s a).2.reward) := rfl

theorem actionRepeatGo_spec (env : PyEnv σ α ω OS AS R) (a : α) :
    ∀ (n : ℕ) (s : σ) (total : ℚ),
      ∃ tl, (takeUntilLast (innerOutputs env a s (n + 1))).getLast? = some tl ∧
        (actionRepeatGo env a n s total).2 =
          ⟨tl.stepType,
           total + ((takeUntilLast (innerOutputs env a s (n + 1))).map
             TimeStep.reward).sum,
           tl.discount, tl.observation⟩ := by
  intro n
  induction n with
  | zero =>
    intro s total
    refine ⟨(env.step s a).2, ?_, ?_⟩
    · simp [innerOutputs, takeUntilLast]
    · simp [actionRepeatGo, innerOutputs, takeUntilLast]
  | succ n ih =>
    intro s total
    by_cases hL : (((env.step s a).2.isLast : Bool) = true)
    · refine ⟨(env.step s a).2, ?_, ?_⟩
      · rw [innerOutputs_succ, takeUntilLast_cons, if_pos hL]
        rfl
      · rw [actionRepeatGo_succ, if_pos hL, innerOutputs_succ,
          takeUntilLast_cons, if_pos hL]
        simp
    · obtain ⟨tl, htl, hres⟩ := ih (env.step s a).1 (total + (env.step s a).2.reward)
      have hne : takeUntilLast (innerOutputs env a (env.step s a).1 (n + 1)) ≠ [] := by
        intro hnil
        rw [hnil] at htl
        simp at htl
      refine ⟨tl, ?_, ?_⟩
      · rw [innerOutputs_succ, takeUntilLast_cons, if_neg hL]
        cases hrest : takeUntilLast (innerOutputs env a (env.step s a).1 (n + 1)) with
        | nil => exact absurd hrest hne
        | cons b l =>
          rw [hrest] at htl
          rw [List.getLast?_cons_cons]
          exact htl
      · rw [actionRepeatGo_succ, if_neg hL]
        rw [innerOutputs_succ env a s (n + 1), takeUntilLast_cons, if_neg hL]
        simp only [List.map_cons, List.sum_cons]
        rw [hres, add_assoc]

/-- C4: for `times >= 2`, `ActionRepeat.step` behaves as stepping the wrapped
environment with the same action up to `times` times, stopping at the first
LAST inner step: the returned time step carries the last inner step's
step type, discount and observation, and reward equal to the sum of the
rewards of the inner steps actually taken. -/
theorem action_repeat_step_correct (env : PyEnv σ α ω OS AS R)
    (times : ℕ) (s : σ) (a : α) (h : 2 ≤ times) :
    ∃ tl, (takeUntilLast (innerOutputs env a s times)).getLast? = some tl ∧
      (actionRepeatStep env times s a).2 =
        ⟨tl.stepType,
         ((takeUntilLast (innerOutputs env a s times)).map TimeStep.reward).sum,
         tl.discount, tl.observation⟩ := by
  obtain ⟨tl, htl, hres⟩ := actionRepeatGo_spec env a (times - 1) s 0
  have heq : times - 1 + 1 = times := by omega
  rw [heq] at htl hres
  exact ⟨tl, htl, by rw [actionRepeatStep, hres, zero_add]⟩

/-- Witness for C4 at `times = 3` on the demo environment. -/
theorem action_repeat_step_correct_witness :
    2 ≤ 3 ∧
    ∃ tl, (takeUntilLast (innerOutputs demoEnv 5 0 3)).getLast? = some tl ∧
      (actionRepeatStep demoEnv 3 0 5).2 =
        ⟨tl.stepType,
         ((takeUntilLast (innerOutputs demoEnv 5 0 3)).map TimeStep.reward).sum,
         tl.discount, tl.observation⟩ :=
  ⟨by decide, action_repeat_step_correct demoEnv 3 0 5 (by decide)⟩

/-- The `ActionRepeat` wrapper object: the wrapped environment and the
stored repeat count (a Python int, hence `ℤ`). -/
structure ActionRepeat (σ α ω OS AS R : Type) where
  env : PyEnv σ α ω OS AS R
  times : ℤ

/-- `ActionRepeat.__init__`: raises `ValueError` when `times <= 1`,
otherwise stores `times`. -/
def mkActionRepeat (env : PyEnv σ α ω OS AS R) (times : ℤ) :
    Except String (ActionRepeat σ α ω OS AS R) :=
  if times ≤ 1 then
    Except.error ("Times parameter (" ++ toString times ++
      ") should be greater than 1")
  else Except.ok ⟨env, times⟩

/-- C8: the `ActionRepeat` constructor raises `ValueError` iff
`times <= 1`, and for `times >= 2` it succeeds and stores the count
unchanged. -/
theorem action_repeat_mk_correct (env : PyEnv σ α ω OS AS R) (times : ℤ) :
    ((∃ e, mkActionRepeat env times = Except.error e) ↔ times ≤ 1) ∧
    (2 ≤ times → mkActionRepeat env times = Except.ok ⟨env, times⟩) := by
  constructor
  · constructor
    · rintro ⟨e, he⟩
      by_contra hgt
      simp only [mkActionRepeat, if_neg hgt] at he
      exact Except.noConfusion he
    · intro hle
      exact ⟨"Times parameter (" ++ toString times ++
        ") should be greater than 1", by simp [mkActionRepeat, hle]⟩
  · intro h2
    have : ¬ times ≤ 1 := by omega
    simp [mkActionRepeat, this]

/-- Witness for C8 at `times = 5`. -/
theorem action_repeat_mk_correct_witness :
    2 ≤ (5 : ℤ) ∧ mkActionRepeat demoEnv 5 = Except.ok ⟨demoEnv, 5⟩ :=
  ⟨by decide, (action_repeat_mk_correct demoEnv 5).2 (by decide)⟩

/-- `PyEnvironmentBaseWrapper`: forwards `reset`, `step`,
`observation_spec`, `action_spec` and `render` to the wrapped
environment. -/
def baseWrapper (env : PyEnv σ α ω OS AS R) : PyEnv σ α ω OS AS R where
  reset := fun s => env.reset s
  step := fun s a => env.step s a
  observationSpec := env.observationSpec
  actionSpec := env.actionSpec
  render := fun s mode => env.render s mode

/-- C9: the base wrapper is observationally the identity: every method
returns exactly what the wrapped environment's method returns. -/
theorem base_wrapper_id (env : PyEnv σ α ω OS AS R) :
    (∀ s, (baseWrapper env).reset s = env.reset s) ∧
    (∀ s a, (baseWrapper env).step s a = env.step s a) ∧
    (baseWrapper env).observationSpec = env.observationSpec ∧
    (baseWrapper env).actionSpec = env.actionSpec ∧
    (∀ s mode, (baseWrapper env).render s mode = env.render s mode) :=
  ⟨fun _ => rfl, fun _ _ => rfl, rfl, rfl, fun _ _ => rfl⟩

/-- Witness for C9 on the demo environment at concrete inputs. -/
theorem base_wrapper_id_witness :
    (baseWrapper demoEnv).reset 0 = demoEnv.reset 0 ∧
    (baseWrapper demoEnv).step 1 2 = demoEnv.step 1 2 :=
  ⟨(base_wrapper_id demoEnv).1 0, (base_wrapper_id demoEnv).2.1 1 2⟩

/-- Componentwise containment of `xs` in the per-dimension interval
`[mns, mxs]`; `False` when the three lists differ in length. -/
def withinBounds {γ : Type} [LE γ] : List γ → List γ → List γ → Prop
  | [], [], [] => True
  | mn :: mns, mx :: mxs, x :: xs =>
      (mn ≤ x ∧ x ≤ mx) ∧ withinBounds mns mxs xs
  | _, _, _ => False

/-- Componentwise ordering of the bound lists (`mns <= mxs` everywhere);
`False` when the lengths differ. -/
def specOrdered {γ : Type} [LE γ] : List γ → List γ → Prop
  | [], [] => True
  | mn :: mns, mx :: mxs => mn ≤ mx ∧ specOrdered mns mxs
  | _, _ => False

/-- A bounded discrete action spec (`BoundedArraySpec` of integer dtype),
with the per-element bounds already broadcast to the spec's shape. -/
structure BoundedIntSpec where
  minimum : List ℤ
  maximum : List ℤ
deriving DecidableEq, Repr

/-- `ActionOffsetWrapper.action_spec`: minimum `np.zeros(shape)`, maximum
`spec.maximum - spec.minimum`. -/
def actionOffsetSpec (spec : BoundedIntSpec) : BoundedIntSpec where
  minimum := List.replicate spec.minimum.length 0
  maximum := List.zipWith (· - ·) spec.maximum spec.minimum

/-- `ActionOffsetWrapper.step`: forwards `action + spec.minimum` to the
wrapped environment. -/
def actionOffsetStep (env : PyEnv σ (List ℤ) ω OS AS R)
    (spec : BoundedIntSpec) (s : σ) (a : List ℤ) : σ × TimeStep ω :=
  env.step s (List.zipWith (· + ·) a spec.minimum)

theorem offset_within (mns : List ℤ) :
    ∀ (mxs a : List ℤ), mxs.length = mns.length →
      withinBounds (List.replicate mns.length 0)
        (List.zipWith (· - ·) mxs mns) a →
      withinBounds mns mxs (List.zipWith (· + ·) a mns) := by
  induction mns with
  | nil =>
    intro mxs a hlen h
    cases mxs with
    | nil =>
      cases a with
      | nil => simp [withinBounds]
      | cons x xs => simp [withinBounds, List.replicate] at h
    | cons mx mxs => simp at hlen
  | cons mn mns ih =>
    intro mxs a hlen h
    cases mxs with
    | nil => simp at hlen
    | cons mx mxs =>
      cases a with
      | nil => simp [withinBounds, List.replicate] at h
      | cons x xs =>
        simp only [List.length_cons, Nat.succ_inj] at hlen
        simp only [List.replicate, List.zipWith, withinBounds] at h ⊢
        obtain ⟨⟨h0, hub⟩, hrest⟩ := h
        exact ⟨⟨by omega, by omega⟩, ih mxs xs hlen hrest⟩

theorem zip_add_zero (mns : List ℤ) :
    List.zipWith (· + ·) (List.replicate mns.length 0) mns = mns := by
  induction mns with
  | nil => rfl
  | cons mn mns ih => simp only [List.replicate, List.zipWith, zero_add, ih]

/-- C5: `ActionOffsetWrapper.action_spec` has minimum all zeros and maximum
`original maximum - original minimum`; `step` forwards `a + original
minimum`; any action valid under the offset spec is forwarded as an action
valid under the original spec, and zero maps to the original minimum. -/
theorem action_offset_correct (env : PyEnv σ (List ℤ) ω OS AS R)
    (spec : BoundedIntSpec) (s : σ) (a : List ℤ) :
    (actionOffsetSpec spec).minimum = List.replicate spec.minimum.length 0 ∧
    (actionOffsetSpec spec).maximum =
      List.zipWith (· - ·) spec.maximum spec.minimum ∧
    actionOffsetStep env spec s a =
      env.step s (List.zipWith (· + ·) a spec.minimum) ∧
    (spec.maximum.length = spec.minimum.length →
      withinBounds (actionOffsetSpec spec).minimum
        (actionOffsetSpec spec).maximum a →
      withinBounds spec.minimum spec.maximum
        (List.zipWith (· + ·) a spec.minimum)) ∧
    List.zipWith (· + ·) (List.replicate spec.minimum.length 0) spec.minimum =
      spec.minimum :=
  ⟨rfl, rfl, rfl,
    fun hlen h => offset_within spec.minimum spec.maximum a hlen h,
    zip_add_zero spec.minimum⟩

/-- A demo environment whose actions are integer vectors. -/
def demoEnvZ : PyEnv ℕ (List ℤ) ℕ Unit Unit Unit where
  reset := fun _ => (0, ⟨StepType.FIRST, 0, 1, 0⟩)
  step := fun s _ => (s + 1, ⟨StepType.MID, 1, 1, s + 1⟩)
  observationSpec := ()
  actionSpec := ()
  render := fun _ _ => ()

/-- Witness for C5: spec minimum `[1, -2]`, maximum `[3, 4]`, offset action
`[2, 6]` is forwarded as `[3, 4]`, valid under the original spec. -/
theorem action_offset_correct_witness :
    withinBounds (actionOffsetSpec ⟨[1, -2], [3, 4]⟩).minimum
      (actionOffsetSpec ⟨[1, -2], [3, 4]⟩).maximum [2, 6] ∧
    withinBounds ([1, -2] : List ℤ) [3, 4]
      (List.zipWith (· + ·) [2, 6] [1, -2]) :=
  ⟨by simp [actionOffsetSpec, withinBounds, List.replicate],
    (action_offset_correct demoEnvZ ⟨[1, -2], [3, 4]⟩ 0 [2, 6]).2.2.2.1
      (by decide)
      (by simp [actionOffsetSpec, withinBounds, List.replicate])⟩

/-- A continuous array spec's bounds, each possibly absent (`None`), with
present bounds already broadcast to the spec's shape. -/
structure QSpec where
  minimum : Option (List ℚ)
  maximum : Option (List ℚ)
deriving DecidableEq, Repr

/-- `np.clip(act, min, max)` on a flat array, where either bound may be
absent: the lower bound is applied first, then the upper bound. -/
def npClip (a : List ℚ) : Option (List ℚ) → Option (List ℚ) → List ℚ
  | none, none => a
  | some mns, none => List.zipWith (fun x mn => max x mn) a mns
  | none, some mxs => List.zipWith (fun x mx => min x mx) a mxs
  | some mns, some mxs =>
      List.zipWith (fun x mx => min x mx)
        (List.zipWith (fun x mn => max x mn) a mns) mxs

/-- `_clip_to_spec` in `ActionClipWrapper.step`: returns the action
unchanged when both bounds are `None`, otherwise `np.clip`s it. -/
def clipToSpec (spec : QSpec) (a : List ℚ) : List ℚ :=
  match spec.minimum, spec.maximum with
  | none, none => a
  | mn, mx => npClip a mn mx

/-- `ActionClipWrapper.step`: forwards the clipped action to the wrapped
environment. -/
def actionClipStep (env : PyEnv σ (List ℚ) ω OS AS R) (spec : QSpec)
    (s : σ) (a : List ℚ) : σ × TimeStep ω :=
  env.step s (clipToSpec spec a)

theorem npClip_within (mns : List ℚ) :
    ∀ (mxs a : List ℚ), specOrdered mns mxs → a.length = mns.length →
      withinBounds mns mxs (npClip a (some mns) (some mxs)) := by
  induction mns with
  | nil =>
    intro mxs a hord hlen
    cases mxs with
    | nil =>
      cases a with
      | nil => simp [npClip, withinBounds]
      | cons x xs => simp at hlen
    | cons mx mxs => simp [specOrdered] at hord
  | cons mn mns ih =>
    intro mxs a hord hlen
    cases mxs with
    | nil => simp [specOrdered] at hord
    | cons mx mxs =>
      cases a with
      | nil => simp at hlen
      | cons x xs =>
        simp only [List.length_cons, Nat.succ_inj] at hlen
        obtain ⟨hmm, hord'⟩ := hord
        have htail := ih mxs xs hord' hlen
        simp only [npClip, List.zipWith, withinBounds] at htail ⊢
        refine ⟨⟨le_min (le_max_right x mn) hmm, min_le_right _ _⟩, htail⟩

theorem npClip_id_of_within (mns : List ℚ) :
    ∀ (mxs a : List ℚ), withinBounds mns mxs a →
      npClip a (some mns) (some mxs) = a := by
  induction mns with
  | nil =>
    intro mxs a h
    cases mxs with
    | nil =>
      cases a with
      | nil => rfl
      | cons x xs => simp [withinBounds] at h
    | cons mx mxs => cases a <;> simp [withinBounds] at h
  | cons mn mns ih =>
    intro mxs a h
    cases mxs with
    | nil => cases a <;> simp [withinBounds] at h
    | cons mx mxs =>
      cases a with
      | nil => simp [withinBounds] at h
      | cons x xs =>
        obtain ⟨⟨hlo, hhi⟩, hrest⟩ := h
        have htail := ih mxs xs hrest
        simp only [npClip, List.zipWith] at htail ⊢
        rw [max_eq_left hlo, min_eq_left hhi]
        rw [htail]

/-- C6: `ActionClipWrapper.step` forwards the componentwise clip of the
action to the spec's `[minimum, maximum]` interval (unchanged when both
bounds are `None`); when both bounds are present and ordered, the forwarded
action lies within the bounds, and an action already within bounds is
forwarded unchanged. -/
theorem action_clip_correct (env : PyEnv σ (List ℚ) ω OS AS R)
    (spec : QSpec) (s : σ) (a : List ℚ) :
    actionClipStep env spec s a = env.step s (clipToSpec spec a) ∧
    (spec.minimum = none → spec.maximum = none → clipToSpec spec a = a) ∧
    (∀ mns mxs, spec.minimum = some mns → spec.maximum = some mxs →
      (specOrdered mns mxs → a.length = mns.length →
        withinBounds mns mxs (clipToSpec spec a)) ∧
      (withinBounds mns mxs a → clipToSpec spec a = a)) := by
  refine ⟨rfl, ?_, ?_⟩
  · intro hmn hmx
    simp [clipToSpec, hmn, hmx]
  · intro mns mxs hmn hmx
    have hspec : clipToSpec spec a = npClip a (some mns) (some mxs) := by
      simp [clipToSpec, hmn, hmx]
    constructor
    · intro hord hlen
      rw [hspec]
      exact npClip_within mns mxs a hord hlen
    · intro h
      rw [hspec]
      exact npClip_id_of_within mns mxs a h

/-- A demo environment whose actions are rational vectors. -/
def demoEnvQ : PyEnv ℕ (List ℚ) ℕ Unit Unit Unit where
  reset := fun _ => (0, ⟨StepType.FIRST, 0, 1, 0⟩)
  step := fun s _ => (s + 1, ⟨StepType.MID, 1, 1, s + 1⟩)
  observationSpec := ()
  actionSpec := ()
  render := fun _ _ => ()

/-- Witness for C6: bounds `[0]` and `[1]`, action `[5]` is clipped into
bounds. -/
theorem action_clip_correct_witness :
    specOrdered [(0 : ℚ)] [1] ∧
    withinBounds [(0 : ℚ)] [1] (clipToSpec ⟨some [0], some [1]⟩ [5]) :=
  ⟨by simp [specOrdered],
    ((action_clip_correct demoEnvQ ⟨some [0], some [1]⟩ 0 [5]).2.2
      [0] [1] rfl rfl).1 (by simp [specOrdered]) (by decide)⟩

/-- `np.linspace(a, b, num=n)`: `n` evenly spaced samples from `a` to `b`
inclusive, in exact arithmetic `a + k * (b - a) / (n - 1)`. -/
def linspace (a b : ℚ) (n : ℕ) : List ℚ :=
  (List.range n).map (fun k : ℕ => a + (k : ℚ) * (b - a) / ((n : ℚ) - 1))

/-- The action map built by `_discretize_spec`: one linspace per flattened
dimension, zipping the broadcast minima, maxima and per-dimension counts. -/
def actionMapOf (mins maxs : List ℚ) (limits : List ℕ) : List (List ℚ) :=
  (List.zip (List.zip mins maxs) limits).map
    (fun p => linspace p.1.1 p.1.2 p.2)

/-- `ActionDiscretizeWrapper._discretize_spec`: raises `ValueError` unless
all per-dimension counts are at least 2, otherwise returns the int32
bounded spec with minimum 0 and maximum `limits - 1` together with the
per-dimension linspaces. -/
def discretizeSpec (mins maxs : List ℚ) (limits : List ℕ) :
    Except String (BoundedIntSpec × List (List ℚ)) :=
  if limits.all (fun l => decide (2 ≤ l)) then
    Except.ok
      (⟨List.replicate limits.length 0, limits.map (fun l => (l : ℤ) - 1)⟩,
       actionMapOf mins maxs limits)
  else Except.error "num_actions should all be at least size 2."

/-- The list comprehension in `_map_actions`:
`[action_map[i][a] for i, a in enumerate(action)]`, failing like Python's
`IndexError` when a discrete action is out of range. -/
def mapIndexed : List (ℕ × List ℚ) → Option (List ℚ)
  | [] => some []
  | (k, m) :: rest =>
      match m[k]? with
      | none => none
      | some v =>
          match mapIndexed rest with
          | none => none
          | some vs => some (v :: vs)

/-- `ActionDiscretizeWrapper._map_actions`: checks the action's shape
against the discrete spec, then maps each discrete component through its
linspace. -/
def mapActions (specShape : ℕ) (actionMap : List (List ℚ))
    (action : List ℕ) : Except String (List ℚ) :=
  if action.length = specShape then
    match mapIndexed (List.zip action actionMap) with
    | some l => Except.ok l
    | none => Except.error "IndexError"
  else Except.error "Received action with incorrect shape."

/-- Validity of a discrete action against the per-dimension counts:
componentwise `k < limit`, with equal lengths. -/
def validAction : List ℕ → List ℕ → Prop
  | [], [] => True
  | k :: ks, l :: ls => k < l ∧ validAction ks ls
  | _, _ => False

/-- The continuous action the claim expects: componentwise
`min + k * (max - min) / (limit - 1)`. -/
def expectedMap : List ℚ → List ℚ → List ℕ → List ℕ → List ℚ
  | mn :: mns, mx :: mxs, l :: ls, k :: ks =>
      (mn + k * (mx - mn) / ((l : ℚ) - 1)) :: expectedMap mns mxs ls ks
  | _, _, _, _ => []

theorem validAction_length :
    ∀ (ks ls : List ℕ), validAction ks ls → ks.length = ls.length := by
  intro ks
  induction ks with
  | nil =>
    intro ls h
    cases ls with
    | nil => rfl
    | cons l ls => simp [validAction] at h
  | cons k ks ih =>
    intro ls h
    cases ls with
    | nil => simp [validAction] at h
    | cons l ls =>
      obtain ⟨-, h'⟩ := h
      simp [ih ls h']

theorem linspace_getElem (a b : ℚ) (n k : ℕ) (hk : k < n) :
    (linspace a b n)[k]? = some (a + (k : ℚ) * (b - a) / ((n : ℚ) - 1)) := by
  rw [linspace, List.getElem?_map, List.getElem?_range hk]
  rfl

theorem mapIndexed_cons (k : ℕ) (m : List ℚ) (rest : List (ℕ × List ℚ)) :
    mapIndexed ((k, m) :: rest) =
      match m[k]? with
      | none => none
      | some v =>
          match mapIndexed rest with
          | none => none
          | some vs => some (v :: vs) := rfl

theorem mapIndexed_eval (mins : List ℚ) :
    ∀ (maxs : List ℚ) (limits action : List ℕ),
      mins.length = limits.length → maxs.length = limits.length →
      validAction action limits →
      mapIndexed (List.zip action (actionMapOf mins maxs limits)) =
        some (expectedMap mins maxs limits action) := by
  induction mins with
  | nil =>
    intro maxs limits action hmins hmaxs hact
    cases limits with
    | nil =>
      cases action with
      | nil => cases maxs <;> rfl
      | cons k ks => simp [validAction] at hact
    | cons l ls => simp at hmins
  | cons mn mns ih =>
    intro maxs limits action hmins hmaxs hact
    cases limits with
    | nil => simp at hmins
    | cons l ls =>
      cases maxs with
      | nil => simp at hmaxs
      | cons mx mxs =>
        cases action with
        | nil => simp [validAction] at hact
        | cons k ks =>
          obtain ⟨hk, hact'⟩ := hact
          simp only [List.length_cons, Nat.succ_inj] at hmins hmaxs
          have hmap : actionMapOf (mn :: mns) (mx :: mxs) (l :: ls) =
              linspace mn mx l :: actionMapOf mns mxs ls := rfl
          have hzip : List.zip (k :: ks)
                (linspace mn mx l :: actionMapOf mns mxs ls) =
              (k, linspace mn mx l) :: List.zip ks (actionMapOf mns mxs ls) := rfl
          rw [hmap, hzip, mapIndexed_cons, linspace_getElem mn mx l k hk,
            ih mxs ls ks hmins hmaxs hact']
          rfl

theorem expectedMap_zeros (mins : List ℚ) :
    ∀ (maxs : List ℚ) (limits : List ℕ),
      mins.length = limits.length → maxs.length = limits.length →
      expectedMap mins maxs limits (List.replicate limits.length 0) = mins := by
  induction mins with
  | nil =>
    intro maxs limits hmins hmaxs
    cases limits with
    | nil => cases maxs <;> rfl
    | cons l ls => simp at hmins
  | cons mn mns ih =>
    intro maxs limits hmins hmaxs
    cases limits with
    | nil => simp at hmins
    | cons l ls =>
      cases maxs with
      | nil => simp at hmaxs
      | cons mx mxs =>
        simp only [List.length_cons, Nat.succ_inj] at hmins hmaxs
        simp only [List.replicate, expectedMap, Nat.cast_zero, zero_mul,
          zero_div, add_zero]
        rw [ih mxs ls hmins hmaxs]

theorem expectedMap_max (mins : List ℚ) :
    ∀ (maxs : List ℚ) (limits : List ℕ),
      mins.length = limits.length → maxs.length = limits.length →
      (∀ l ∈ limits, 2 ≤ l) →
      expectedMap mins maxs limits (limits.map (fun l => l - 1)) = maxs := by
  induction mins with
  | nil =>
    intro maxs limits hmins hmaxs hlim
    cases limits with
    | nil => cases maxs with
      | nil => rfl
      | cons mx mxs => simp at hmaxs
    | cons l ls => simp at hmins
  | cons mn mns ih =>
    intro maxs limits hmins hmaxs hlim
    cases limits with
    | nil => simp at hmins
    | cons l ls =>
      cases maxs with
      | nil => simp at hmaxs
      | cons mx mxs =>
        simp only [List.length_cons, Nat.succ_inj] at hmins hmaxs
        have hl : 2 ≤ l := hlim l (List.mem_cons_self l ls)
        have hl1 : 1 ≤ l := by omega
        have hcast : ((l - 1 : ℕ) : ℚ) = (l : ℚ) - 1 := by
          push_cast [hl1]
          ring
        have hne : ((l : ℚ) - 1) ≠ 0 := by
          have : (2 : ℚ) ≤ (l : ℚ) := by exact_mod_cast hl
          linarith
        simp only [List.map_cons, expectedMap, hcast]
        rw [ih mxs ls hmins hmaxs (fun x hx => hlim x (List.mem_cons_of_mem l hx))]
        congr 1
        field_simp

/-- C3: with per-dimension counts all at least 2, `_discretize_spec`
returns an integer bounded spec of the original shape with minimum 0 and
maximum `num_actions - 1` together with one linspace per dimension, and
`_map_actions` sends a valid discrete action `k` to the componentwise
`min + k * (max - min) / (num_actions - 1)` — the `k`-th evenly spaced
value — so 0 maps to the minimum and `num_actions - 1` to the maximum. -/
theorem action_discretize_correct (mins maxs : List ℚ)
    (limits action : List ℕ)
    (hmins : mins.length = limits.length)
    (hmaxs : maxs.length = limits.length)
    (hlim : ∀ l ∈ limits, 2 ≤ l)
    (hact : validAction action limits) :
    discretizeSpec mins maxs limits =
      Except.ok
        (⟨List.replicate limits.length 0, limits.map (fun l => (l : ℤ) - 1)⟩,
         actionMapOf mins maxs limits) ∧
    mapActions limits.length (actionMapOf mins maxs limits) action =
      Except.ok (expectedMap mins maxs limits action) ∧
    expectedMap mins maxs limits (List.replicate limits.length 0) = mins ∧
    expectedMap mins maxs limits (limits.map (fun l => l - 1)) = maxs := by
  refine ⟨?_, ?_, ?_, ?_⟩
  · have hall : limits.all (fun l => decide (2 ≤ l)) = true := by
      rw [List.all_eq_true]
      intro l hll
      exact decide_eq_true_eq.mpr (hlim l hll)
    simp [discretizeSpec, hall]
  · have hlen : action.length = limits.length := validAction_length action limits hact
    rw [mapActions, if_pos hlen,
      mapIndexed_eval mins maxs limits action hmins hmaxs hact]
  · exact expectedMap_zeros mins maxs limits hmins hmaxs
  · exact expectedMap_max mins maxs limits hmins hmaxs hlim

/-- Witness for C3 at minima `[0]`, maxima `[10]`, counts `[6]`, action
`[3]`: the mapped action is `[6]`. -/
theorem action_discretize_correct_witness :
    validAction [3] [6] ∧
    mapActions 1 (actionMapOf [0] [10] [6]) [3] =
      Except.ok (expectedMap [0] [10] [6] [3]) :=
  ⟨by simp [validAction],
    (action_discretize_correct [0] [10] [6] [3] rfl rfl
      (by intro l hl; simp at hl; omega) (by simp [validAction])).2.1⟩

/-- A numpy array: its shape and its elements in row-major (flat) order. -/
structure NpArray where
  shape : List ℕ
  data : List ℚ
deriving DecidableEq, Repr

/-- A one-dimensional `ArraySpec`, as produced for the packed
observations. -/
structure ArraySpec1 where
  len : ℕ
  name : String
deriving DecidableEq, Repr

/-- `_filter_observations`: keeps only the whitelisted keys, preserving
order; with no whitelist everything is kept. -/
def filterObs {γ : Type} (whitelist : Option (List String))
    (obs : List (String × γ)) : List (String × γ) :=
  match whitelist with
  | none => obs
  | some wl => obs.filter (fun p => p.1 ∈ wl)

/-- `_flatten_nested_observations`, unbatched: `np.reshape(x, [-1])` of a
row-major array is its flat data, and `np.concatenate(axis=0)` joins the
flattened arrays in the structure's flattening order. -/
def flattenNestedObs (obs : List NpArray) : List ℚ :=
  (obs.map NpArray.data).flatten

/-- `FlattenObservationsWrapper.observation_spec()`: a one-dimensional
spec named `packed_observations` whose length is the sum, over kept
observation spec shapes, of the product of the dimensions. -/
def flattenedObservationSpec (keptShapes : List (List ℕ)) : ArraySpec1 :=
  ⟨(keptShapes.map List.prod).sum, "packed_observations"⟩

/-- `_pack_and_filter_timestep_observation`, unbatched: same step type,
reward and discount; the kept observations flattened and concatenated. -/
def packTimestep (whitelist : Option (List String))
    (t : TimeStep (List (String × NpArray))) : TimeStep (List ℚ) :=
  ⟨t.stepType, t.reward, t.discount,
   flattenNestedObs ((filterObs whitelist t.observation).map Prod.snd)⟩

/-- `FlattenObservationsWrapper.step`, unbatched. -/
def flattenStep (env : PyEnv σ α (List (String × NpArray)) OS AS R)
    (whitelist : Option (List String)) (s : σ) (a : α) :
    σ × TimeStep (List ℚ) :=
  let r := env.step s a
  (r.1, packTimestep whitelist r.2)

/-- `FlattenObservationsWrapper.reset`, unbatched. -/
def flattenReset (env : PyEnv σ α (List (String × NpArray)) OS AS R)
    (whitelist : Option (List String)) (s : σ) : σ × TimeStep (List ℚ) :=
  let r := env.reset s
  (r.1, packTimestep whitelist r.2)

/-- Row `b` of `np.reshape(x, [x.shape[0], -1])` for a batch of size `B`:
the `b`-th chunk of `x`'s row-major data. -/
def chunkRow (B b : ℕ) (x : NpArray) : List ℚ :=
  let k := x.data.length / B
  (x.data.drop (b * k)).take k

/-- `_flatten_nested_observations`, batched: each array is reshaped to
`[B, -1]` and the results are concatenated along axis 1, so row `b` of the
output is the join of the arrays' `b`-th rows. -/
def flattenNestedObsBatched (B : ℕ) (obs : List NpArray) : List (List ℚ) :=
  (List.range B).map (fun b => (obs.map (chunkRow B b)).flatten)

theorem flattenNestedObs_length (arrays : List NpArray) (prods : List ℕ)
    (h : arrays.map (fun x => x.data.length) = prods) :
    (flattenNestedObs arrays).length = prods.sum := by
  rw [flattenNestedObs, List.length_flatten, List.map_map]
  rw [show (List.length ∘ NpArray.data) = fun x => x.data.length from rfl] at *
  rw [h]

theorem chunkRow_length (B b m : ℕ) (x : NpArray) (hb : b < B)
    (hx : x.data.length = B * m) : (chunkRow B b x).length = m := by
  have hB : 0 < B := by omega
  have hk : x.data.length / B = m := by
    rw [hx, Nat.mul_div_cancel_left m hB]
  show ((x.data.drop (b * (x.data.length / B))).take
    (x.data.length / B)).length = m
  rw [hk, List.length_take, List.length_drop, hx]
  have h1 : b * m + m ≤ B * m := by
    have h2 : (b + 1) * m ≤ B * m := Nat.mul_le_mul_right m (by omega)
    calc b * m + m = (b + 1) * m := by ring
    _ ≤ B * m := h2
  exact min_eq_left (Nat.le_sub_of_add_le (by linarith [h1]))

theorem chunkRows_flatten_length (B b : ℕ) (hb : b < B) :
    ∀ (arrays : List NpArray) (prods : List ℕ),
      arrays.map (fun x => x.data.length) = prods.map (fun m => B * m) →
      ((arrays.map (chunkRow B b)).flatten).length = prods.sum := by
  intro arrays
  induction arrays with
  | nil =>
    intro prods h
    have : prods.map (fun m => B * m) = [] := h.symm
    rw [List.map_eq_nil_iff] at this
    simp [this]
  | cons x xs ih =>
    intro prods h
    cases prods with
    | nil => simp at h
    | cons m ms =>
      simp only [List.map_cons, List.cons.injEq] at h
      obtain ⟨hx, hxs⟩ := h
      simp only [List.map_cons, List.flatten_cons, List.length_append,
        List.sum_cons]
      rw [chunkRow_length B b m x hb hx, ih ms hxs]

/-- C7: the packed observation spec is one-dimensional, named
`packed_observations`, of length the sum over kept observation spec shapes
of the product of their dimensions; `step` and `reset` return the kept
observations flattened and concatenated in flattening order with step
type, reward and discount unchanged, and when the kept runtime arrays
conform to the kept spec shapes the packed observation has exactly the
spec's length; in the batched case each batch row is the join of the
arrays' corresponding rows, of that same length, so the batch dimension is
preserved. -/
theorem flatten_observations_correct
    (env : PyEnv σ α (List (String × NpArray)) OS AS R)
    (whitelist : Option (List String)) (specItems : List (String × List ℕ))
    (s : σ) (a : α) :
    (flattenedObservationSpec ((filterObs whitelist specItems).map Prod.snd)).name
        = "packed_observations" ∧
    (flattenedObservationSpec ((filterObs whitelist specItems).map Prod.snd)).len
        = (((filterObs whitelist specItems).map Prod.snd).map List.prod).sum ∧
    (flattenStep env whitelist s a).2 =
      ⟨(env.step s a).2.stepType, (env.step s a).2.reward,
       (env.step s a).2.discount,
       flattenNestedObs
         ((filterObs whitelist (env.step s a).2.observation).map Prod.snd)⟩ ∧
    (flattenReset env whitelist s).2 =
      ⟨(env.reset s).2.stepType, (env.reset s).2.reward,
       (env.reset s).2.discount,
       flattenNestedObs
         ((filterObs whitelist (env.reset s).2.observation).map Prod.snd)⟩ ∧
    (((filterObs whitelist (env.step s a).2.observation).map Prod.snd).map
        (fun x => x.data.length) =
      ((filterObs whitelist specItems).map Prod.snd).map List.prod →
      (flattenStep env whitelist s a).2.observation.length =
        (flattenedObservationSpec
          ((filterObs whitelist specItems).map Prod.snd)).len) ∧
    (∀ (B b : ℕ) (arrays : List NpArray) (prods : List ℕ), b < B →
      arrays.map (fun x => x.data.length) = prods.map (fun m => B * m) →
      (flattenNestedObsBatched B arrays)[b]? =
        some ((arrays.map (chunkRow B b)).flatten) ∧
      ((arrays.map (chunkRow B b)).flatten).length = prods.sum) := by
  refine ⟨rfl, ?_, rfl, rfl, ?_, ?_⟩
  · simp [flattenedObservationSpec]
  · intro h
    exact flattenNestedObs_length _ _ h
  · intro B b arrays prods hb h
    constructor
    · rw [flattenNestedObsBatched, List.getElem?_map,
        List.getElem?_range hb]
      rfl
    · exact chunkRows_flatten_length B b hb arrays prods h

/-- Witness for C7: two kept arrays of shapes `[2]` and `[1, 2]`, packed
into a length-4 observation. -/
theorem flatten_observations_correct_witness :
    (flattenStep
        ({ reset := fun _ => (0, ⟨StepType.FIRST, 0, 1, []⟩),
           step := fun t _ =>
             (t + 1, ⟨StepType.MID, 1, 1,
               [("p", ⟨[2], [1, 2]⟩), ("q", ⟨[1, 2], [3, 4]⟩)]⟩),
           observationSpec := (), actionSpec := (),
           render := fun _ _ => () } : PyEnv ℕ ℕ (List (String × NpArray)) Unit Unit Unit)
        none 0 0).2.observation.length =
      (flattenedObservationSpec
        ((filterObs none [("p", [2]), ("q", [1, 2])]).map Prod.snd)).len :=
  (flatten_observations_correct
      ({ reset := fun _ => (0, ⟨StepType.FIRST, 0, 1, []⟩),
         step := fun t _ =>
           (t + 1, ⟨StepType.MID, 1, 1,
             [("p", ⟨[2], [1, 2]⟩), ("q", ⟨[1, 2], [3, 4]⟩)]⟩),
         observationSpec := (), actionSpec := (),
         render := fun _ _ => () })
      none [("p", [2]), ("q", [1, 2])] 0 0).2.2.2.2.1 (by decide)

end TfAgents
